import Mathlib

/-!
Verification of the `enumerate-number` iterator-adapter library.

The library (src/lib.rs) provides:
  * a `Counter` trait (zero default, `inc`, `dec`, `inc_n`) implemented for
    every built-in Rust numeric type;
  * an `Enumerate<I, C>` adapter pairing each element of an inner iterator
    with a running counter of type `C`, supporting `next`, `size_hint`,
    `nth`, `count`, `fold`, `next_back`, `nth_back`, `rfold`, `len`;
  * an `EnumerateNumber` extension trait with a generic `enumerate_number`
    call and per-type convenience calls.

The inner iterator is modelled as a `List α` holding the remaining
elements, the canonical well-behaved fused, double-ended, exact-size
iterator.  Machine integers of bit width `w` are modelled as `Fin (2 ^ w)`
with wrapping arithmetic, which is the two's-complement residue semantics
shared by the signed and unsigned Rust types of that width.
-/

set_option autoImplicit false

universe u v

variable {α : Type u} {β : Type u} {B : Type v} {C : Type u}

/-- Model of the `Counter` trait (src/lib.rs lines 6-10): a default
(zero-equivalent) value plus in-place `inc`, `dec` and `inc_n`
operations, modelled as pure functions on the carrier. -/
structure Counter (C : Type u) where
  default : C
  inc : C → C
  dec : C → C
  inc_n : C → Nat → C

/-- Reduce a natural number into the machine-integer carrier of bit
width `w`.  Wrapping (mod `2 ^ w`) is the behaviour of Rust's release
arithmetic and of two's-complement casts. -/
def wMod (w : Nat) (x : Nat) : Fin (2 ^ w) :=
  ⟨x % 2 ^ w, Nat.mod_lt _ (Nat.pos_pow_of_pos w (by decide))⟩

/-- Model of `impl_counter!` (src/lib.rs lines 11-38) for an integer type
of bit width `w`: `inc` is wrapping `+1`, `dec` is wrapping `-1`
(adding `2 ^ w - 1`), and `inc_n n` first truncates the platform-sized
`n` to the width (`n as $ty`, i.e. `n % 2 ^ w`) and then wrapping-adds.
Signed and unsigned types of the same width share this residue
arithmetic; `isize`/`usize` are the `w = 64` instance on a 64-bit
platform. -/
def wordCounter (w : Nat) : Counter (Fin (2 ^ w)) :=
  ⟨wMod w 0,
   fun x => wMod w (x.val + 1),
   fun x => wMod w (x.val + (2 ^ w - 1)),
   fun x n => wMod w (x.val + n % 2 ^ w)⟩

/-- The state of the `Enumerate` adapter (src/lib.rs lines 40-44): the
inner iterator (its remaining elements) and the stored counter. -/
structure Enumerate (α : Type u) (C : Type u) where
  iter : List α
  count : C
deriving DecidableEq

/-- Inner iterator `next`: yield the front element and the advanced
iterator; on an exhausted iterator report `none` and stay exhausted. -/
def listNext : List α → Option α × List α
  | [] => (none, [])
  | a :: l => (some a, l)

/-- Inner iterator `nth n`: consume `n + 1` elements from the front and
yield the last one consumed; if fewer remain, everything is consumed and
`none` is reported. -/
def listNth : List α → Nat → Option α × List α
  | [], _ => (none, [])
  | a :: l, 0 => (some a, l)
  | _ :: l, n + 1 => listNth l n

/-- Inner iterator `next_back`: yield the last element and drop it. -/
def listNextBack : List α → Option α × List α
  | [] => (none, [])
  | [a] => (some a, [])
  | a :: b :: l =>
      ((listNextBack (b :: l)).1, a :: (listNextBack (b :: l)).2)

/-- Inner iterator `nth_back n`: consume `n + 1` elements from the back
and yield the last one consumed; if fewer remain, everything is consumed
and `none` is reported. -/
def listNthBack : List α → Nat → Option α × List α
  | l, 0 => listNextBack l
  | l, n + 1 =>
      match listNextBack l with
      | (none, l') => (none, l')
      | (some _, l') => listNthBack l' n

/-- Inner iterator `size_hint`: for an exact-size iterator, both bounds
are the remaining length. -/
def listSizeHint (l : List α) : Nat × Option Nat :=
  (l.length, some l.length)

/-- Inner iterator `len` (`ExactSizeIterator`). -/
def listLen (l : List α) : Nat :=
  l.length

/-- Inner iterator `fold`: left fold over the remaining elements. -/
def listFold (acc : B) (f : B → α → B) (l : List α) : B :=
  l.foldl f acc

/-- Inner iterator `rfold`: right-to-left fold, i.e. a left fold over the
reversed remaining elements. -/
def listRfold (acc : B) (f : B → α → B) (l : List α) : B :=
  l.reverse.foldl f acc

/-- `Enumerate::next` (src/lib.rs lines 49-55): pull from the inner
iterator; on success capture the counter, advance it by one, and yield
the captured value with the element. -/
def enumNext (ops : Counter C) (e : Enumerate α C) :
    Option (C × α) × Enumerate α C :=
  match listNext e.iter with
  | (none, it) => (none, ⟨it, e.count⟩)
  | (some a, it) => (some (e.count, a), ⟨it, ops.inc e.count⟩)

/-- `Enumerate::size_hint` (src/lib.rs lines 57-60): passthrough of the
inner iterator's hint. -/
def enumSizeHint (e : Enumerate α C) : Nat × Option Nat :=
  listSizeHint e.iter

/-- `Enumerate::nth` (src/lib.rs lines 62-69): delegate `nth` to the
inner iterator; on success advance the counter by `n`, capture it,
advance once more, and yield.  On failure (`?`) the counter is left
untouched even though the inner iterator was consumed. -/
def enumNth (ops : Counter C) (e : Enumerate α C) (n : Nat) :
    Option (C × α) × Enumerate α C :=
  match listNth e.iter n with
  | (none, it) => (none, ⟨it, e.count⟩)
  | (some a, it) =>
      (some (ops.inc_n e.count n, a), ⟨it, ops.inc (ops.inc_n e.count n)⟩)

/-- `Enumerate::count` (src/lib.rs lines 71-74): delegate to the inner
iterator, discarding the counter. -/
def enumCount (e : Enumerate α C) : Nat :=
  listLen e.iter

/-- `Enumerate::fold` (src/lib.rs lines 76-86): drive the inner fold
while threading a local copy of the counter, advancing it after each
callback invocation. -/
def enumFold (ops : Counter C) (e : Enumerate α C) (init : B)
    (f : B → C × α → B) : B :=
  (listFold (init, e.count)
    (fun p a => (f p.1 (p.2, a), ops.inc p.2)) e.iter).1

/-- `Enumerate::next_back` (src/lib.rs lines 93-100): pull from the back
of the inner iterator, then emit the stored counter advanced by the
inner iterator's remaining length; the stored counter itself is not
modified. -/
def enumNextBack (ops : Counter C) (e : Enumerate α C) :
    Option (C × α) × Enumerate α C :=
  match listNextBack e.iter with
  | (none, it) => (none, ⟨it, e.count⟩)
  | (some a, it) => (some (ops.inc_n e.count (listLen it), a), ⟨it, e.count⟩)

/-- `Enumerate::nth_back` (src/lib.rs lines 102-109): delegate `nth_back`
to the inner iterator, then emit the stored counter advanced by the
remaining length; the stored counter itself is not modified. -/
def enumNthBack (ops : Counter C) (e : Enumerate α C) (n : Nat) :
    Option (C × α) × Enumerate α C :=
  match listNthBack e.iter n with
  | (none, it) => (none, ⟨it, e.count⟩)
  | (some a, it) => (some (ops.inc_n e.count (listLen it), a), ⟨it, e.count⟩)

/-- `Enumerate::rfold` (src/lib.rs lines 111-121): a local counter starts
at the stored counter advanced by the full remaining length and is
decremented before each callback invocation, while the inner iterator's
`rfold` runs from back to front. -/
def enumRfold (ops : Counter C) (e : Enumerate α C) (init : B)
    (f : B → C × α → B) : B :=
  (listRfold (init, ops.inc_n e.count (listLen e.iter))
    (fun p a => (f p.1 (ops.dec p.2, a), ops.dec p.2)) e.iter).1

/-- `ExactSizeIterator::len` for `Enumerate` (src/lib.rs lines 125-129):
passthrough of the inner iterator's length. -/
def enumLen (e : Enumerate α C) : Nat :=
  listLen e.iter

/-- `EnumerateNumber::enumerate_number` (src/lib.rs lines 167-170): wrap
an iterator with the counter initialized to the type's default. -/
def enumerate_number (ops : Counter C) (l : List α) : Enumerate α C :=
  ⟨l, ops.default⟩

/-- Body generated by the `def_iterator_ext!` macro (src/lib.rs lines
131-139) for each per-type convenience call. -/
def def_iterator_ext (ops : Counter C) (l : List α) : Enumerate α C :=
  ⟨l, ops.default⟩

/-- Spec-side description of front-to-back output: element `i` of `l`
paired with the start counter incremented `i` times. -/
def specPairs (ops : Counter C) (c : C) (l : List α) : List (C × α) :=
  List.zipWith (fun i a => ((ops.inc) ^[i] c, a)) (List.range l.length) l

/-- Repeatedly step the adapter forward with `next`, collecting the
yielded pairs, for at most `fuel` steps. -/
def consumeN (ops : Counter C) : Nat → Enumerate α C → List (C × α)
  | 0, _ => []
  | n + 1, e =>
      match enumNext ops e with
      | (none, _) => []
      | (some p, e') => p :: consumeN ops n e'

/-- Exhaustive front-to-back consumption of the adapter via `next`. -/
def consumeAll (ops : Counter C) (e : Enumerate α C) : List (C × α) :=
  consumeN ops (enumLen e) e

theorem specPairs_nil (ops : Counter C) (c : C) :
    specPairs ops c ([] : List α) = [] := rfl

theorem specPairs_cons (ops : Counter C) (c : C) (a : α) (l : List α) :
    specPairs ops c (a :: l) = (c, a) :: specPairs ops (ops.inc c) l := by
  simp only [specPairs, List.length_cons, List.range_succ_eq_map,
    List.zipWith_cons_cons, List.zipWith_map_left,
    Function.iterate_zero_apply, Function.iterate_succ_apply]

theorem length_specPairs (ops : Counter C) (c : C) (l : List α) :
    (specPairs ops c l).length = l.length := by
  simp [specPairs]

theorem consumeN_eq_specPairs (ops : Counter C) :
    ∀ (fuel : Nat) (l : List α) (c : C),
      consumeN ops fuel ⟨l, c⟩ = specPairs ops c (l.take fuel)
  | 0, _, _ => rfl
  | _ + 1, [], _ => rfl
  | fuel + 1, a :: l, c => by
      simp only [consumeN, enumNext, listNext, List.take_succ_cons,
        specPairs_cons]
      exact congrArg _ (consumeN_eq_specPairs ops fuel l (ops.inc c))

/-- Claim C1: wrapping any finite inner iterator with `enumerate_number`
and consuming it exhaustively from the front via `next` yields exactly
`L` pairs whose counters are the default value of the counter type
incremented `0, 1, ..., L - 1` times, each paired with the corresponding
element in original order. -/
theorem c1_front_consumption (ops : Counter C) (l : List α) :
    consumeAll ops (enumerate_number ops l) = specPairs ops ops.default l
      ∧ (consumeAll ops (enumerate_number ops l)).length = l.length := by
  have h : consumeAll ops (enumerate_number ops l)
      = specPairs ops ops.default l := by
    simp [consumeAll, enumerate_number, enumLen, listLen,
      consumeN_eq_specPairs, List.take_length]
  exact ⟨h, by rw [h, length_specPairs]⟩

theorem wordCounter_inc_iterate (w : Nat) (x : Fin (2 ^ w)) :
    ∀ n : Nat, ((wordCounter w).inc) ^[n] x = wMod w (x.val + n)
  | 0 => by
      apply Fin.ext
      simp [wMod, Nat.mod_eq_of_lt x.isLt]
  | n + 1 => by
      rw [Function.iterate_succ_apply', wordCounter_inc_iterate w x n]
      apply Fin.ext
      show ((x.val + n) % 2 ^ w + 1) % 2 ^ w = (x.val + (n + 1)) % 2 ^ w
      rw [Nat.mod_add_mod, Nat.add_assoc]

theorem wordCounter_inc_n_eq (w : Nat) (x : Fin (2 ^ w)) (n : Nat) :
    (wordCounter w).inc_n x n = ((wordCounter w).inc) ^[n] x := by
  rw [wordCounter_inc_iterate]
  apply Fin.ext
  show (x.val + n % 2 ^ w) % 2 ^ w = (x.val + n) % 2 ^ w
  conv_rhs => rw [Nat.add_mod, Nat.mod_eq_of_lt x.isLt]

theorem wordCounter_dec_inc (w : Nat) (x : Fin (2 ^ w)) :
    (wordCounter w).dec ((wordCounter w).inc x) = x := by
  have hm : 0 < 2 ^ w := Nat.pos_pow_of_pos w (by decide)
  apply Fin.ext
  show ((x.val + 1) % 2 ^ w + (2 ^ w - 1)) % 2 ^ w = x.val
  rw [Nat.mod_add_mod]
  have h1 : x.val + 1 + (2 ^ w - 1) = x.val + 2 ^ w := by omega
  rw [h1, Nat.add_mod_right, Nat.mod_eq_of_lt x.isLt]

/-- Claim C6: for the machine-integer counter of any bit width `w`
(signed or unsigned, including the pointer-sized types), `inc_n n`
applied to any starting value produces the same result as applying
`inc` exactly `n` times — including when `n` exceeds the type's value
range, thanks to wrapping.  (The claim itself exempts `f32`/`f64`,
whose intermediate rounding may differ.) -/
theorem c6_inc_n_eq_iterated_inc (w : Nat) (x : Fin (2 ^ w)) (n : Nat) :
    (wordCounter w).inc_n x n = ((wordCounter w).inc) ^[n] x :=
  wordCounter_inc_n_eq w x n

/-- Claim C8: `next_back` and `nth_back` leave the adapter's stored
forward counter unchanged, whether they yield an element or report
exhaustion. -/
theorem c8_back_ops_preserve_count (ops : Counter C) (e : Enumerate α C)
    (n : Nat) :
    ((enumNextBack ops e).2).count = e.count
      ∧ ((enumNthBack ops e n).2).count = e.count := by
  refine ⟨?_, ?_⟩
  · rcases h : listNextBack e.iter with ⟨o, it⟩
    cases o <;> simp [enumNextBack, h]
  · rcases h : listNthBack e.iter n with ⟨o, it⟩
    cases o <;> simp [enumNthBack, h]

/-- Claim C9: the adapter's size and length reporting is an exact
passthrough of the inner iterator's, and the counter value never
affects the reported cardinality. -/
theorem c9_size_len_passthrough (e : Enumerate α C) :
    enumSizeHint e = listSizeHint e.iter
      ∧ enumLen e = listLen e.iter
      ∧ ∀ c' : C, enumSizeHint ⟨e.iter, c'⟩ = enumSizeHint e
          ∧ enumLen ⟨e.iter, c'⟩ = enumLen e :=
  ⟨rfl, rfl, fun _ => ⟨rfl, rfl⟩⟩

theorem listNth_of_le :
    ∀ (l : List α) (n : Nat), l.length ≤ n → listNth l n = (none, [])
  | [], _, _ => rfl
  | _ :: l, n + 1, h =>
      listNth_of_le l n (Nat.le_of_succ_le_succ (by simpa using h))

/-- Claim C10: when `nth n` reports exhaustion because fewer than
`n + 1` elements remain, the stored counter is left unchanged even
though the inner iterator's remaining elements were consumed by the
attempted skip. -/
theorem c10_nth_failure_preserves_count (ops : Counter C)
    (e : Enumerate α C) (n : Nat) (h : e.iter.length ≤ n) :
    (enumNth ops e n).1 = none
      ∧ (enumNth ops e n).2.count = e.count
      ∧ (enumNth ops e n).2.iter = [] := by
  simp [enumNth, listNth_of_le e.iter n h]

theorem c10_witness :
    ([5, 6] : List Nat).length ≤ 3
      ∧ ((enumNth (wordCounter 16)
            (⟨[5, 6], wMod 16 0⟩ : Enumerate Nat (Fin (2 ^ 16))) 3).1 = none
        ∧ (enumNth (wordCounter 16)
            (⟨[5, 6], wMod 16 0⟩ : Enumerate Nat (Fin (2 ^ 16))) 3).2.count
            = wMod 16 0
        ∧ (enumNth (wordCounter 16)
            (⟨[5, 6], wMod 16 0⟩ : Enumerate Nat (Fin (2 ^ 16))) 3).2.iter
            = []) :=
  ⟨by decide,
   c10_nth_failure_preserves_count (wordCounter 16)
     (⟨[5, 6], wMod 16 0⟩ : Enumerate Nat (Fin (2 ^ 16))) 3 (by decide)⟩

theorem listNextBack_eq :
    ∀ l : List α, listNextBack l = (l.getLast?, l.dropLast)
  | [] => rfl
  | [_] => rfl
  | a :: b :: l => by
      simp only [listNextBack, listNextBack_eq (b :: l),
        List.getLast?_cons_cons]
      rfl

theorem listNth_snd_of_none :
    ∀ (l : List α) (n : Nat), (listNth l n).1 = none → (listNth l n).2 = []
  | [], _, _ => rfl
  | _ :: _, 0, h => by simp [listNth] at h
  | _ :: l, n + 1, h => listNth_snd_of_none l n h

theorem listNextBack_none (l : List α) (h : (listNextBack l).1 = none) :
    l = [] := by
  rw [listNextBack_eq] at h
  exact List.getLast?_eq_none_iff.mp h

theorem listNthBack_snd_of_none :
    ∀ (n : Nat) (l : List α),
      (listNthBack l n).1 = none → (listNthBack l n).2 = []
  | 0, l, h => by
      have hl : l = [] := listNextBack_none l (by simpa [listNthBack] using h)
      subst hl; rfl
  | n + 1, l, h => by
      rcases hb : listNextBack l with ⟨o, l'⟩
      cases o with
      | none =>
          have hl : l = [] := listNextBack_none l (by rw [hb])
          subst hl
          simp [listNthBack, listNextBack]
      | some a =>
          have hrec := listNthBack_snd_of_none n l'
          simp only [listNthBack, hb] at h ⊢
          exact hrec h

/-- Claim C5: once the inner iterator is exhausted, every adapter
operation (`next`, `nth`, `next_back`, `nth_back`, `fold`, `rfold`)
reports exhaustion and leaves the state, in particular the stored
counter, unchanged; and conversely any operation that reports
exhaustion leaves the inner iterator exhausted and never advances the
stored counter. -/
theorem c5_fused_exhaustion (ops : Counter C) (e : Enumerate α C)
    (n : Nat) (init : B) (f g : B → C × α → B) (h : e.iter = []) :
    enumNext ops e = (none, e)
      ∧ enumNth ops e n = (none, e)
      ∧ enumNextBack ops e = (none, e)
      ∧ enumNthBack ops e n = (none, e)
      ∧ enumFold ops e init f = init
      ∧ enumRfold ops e init g = init
      ∧ (∀ e' : Enumerate α C,
          (enumNext ops e').1 = none → (enumNext ops e').2 = e' ∧ e'.iter = [])
      ∧ (∀ (e' : Enumerate α C) (m : Nat),
          (enumNth ops e' m).1 = none →
            (enumNth ops e' m).2.iter = []
              ∧ (enumNth ops e' m).2.count = e'.count)
      ∧ (∀ e' : Enumerate α C,
          (enumNextBack ops e').1 = none →
            (enumNextBack ops e').2 = e' ∧ e'.iter = [])
      ∧ (∀ (e' : Enumerate α C) (m : Nat),
          (enumNthBack ops e' m).1 = none →
            (enumNthBack ops e' m).2.iter = []
              ∧ (enumNthBack ops e' m).2.count = e'.count) := by
  obtain ⟨l, c⟩ := e
  simp only at h
  subst h
  refine ⟨rfl, ?_, rfl, ?_, rfl, rfl, ?_, ?_, ?_, ?_⟩
  · cases n <;> rfl
  · cases n <;> rfl
  · rintro ⟨l', c'⟩ h'
    cases l' with
    | nil => exact ⟨rfl, rfl⟩
    | cons a t => simp [enumNext, listNext] at h'
  · rintro ⟨l', c'⟩ m h'
    rcases hl : listNth l' m with ⟨o, it⟩
    cases o with
    | none =>
        have h2 := listNth_snd_of_none l' m (by rw [hl])
        rw [hl] at h2
        simp only at h2
        simp [enumNth, hl, h2]
    | some a => simp [enumNth, hl] at h'
  · rintro ⟨l', c'⟩ h'
    rcases hb : listNextBack l' with ⟨o, it⟩
    cases o with
    | none =>
        have hnil : l' = [] := listNextBack_none l' (by rw [hb])
        subst hnil
        simp [listNextBack] at hb
        simp [enumNextBack, listNextBack, ← hb]
    | some a => simp [enumNextBack, hb] at h'
  · rintro ⟨l', c'⟩ m h'
    rcases hb : listNthBack l' m with ⟨o, it⟩
    cases o with
    | none =>
        have h2 := listNthBack_snd_of_none m l' (by rw [hb])
        rw [hb] at h2
        simp only at h2
        simp [enumNthBack, hb, h2]
    | some a => simp [enumNthBack, hb] at h'

theorem c5_witness :
    (⟨[], wMod 16 0⟩ : Enumerate Nat (Fin (2 ^ 16))).iter = []
      ∧ enumNext (wordCounter 16)
          (⟨[], wMod 16 0⟩ : Enumerate Nat (Fin (2 ^ 16)))
          = (none, (⟨[], wMod 16 0⟩ : Enumerate Nat (Fin (2 ^ 16)))) :=
  ⟨rfl,
   (c5_fused_exhaustion (wordCounter 16)
     (⟨[], wMod 16 0⟩ : Enumerate Nat (Fin (2 ^ 16))) 0 (0 : Nat)
     (fun b _ => b) (fun b _ => b) rfl).1⟩

/-- Call `next` `n + 1` times, discarding the first `n` results:
returns the last result together with the final adapter state. -/
def iterNextN (ops : Counter C) :
    Nat → Enumerate α C → Option (C × α) × Enumerate α C
  | 0, e => enumNext ops e
  | n + 1, e => iterNextN ops n (enumNext ops e).2

theorem listNth_isSome :
    ∀ (l : List α) (n : Nat), n < l.length → ((listNth l n).1).isSome
  | [], _, h => absurd h (by simp)
  | _ :: _, 0, _ => rfl
  | _ :: l, n + 1, h => listNth_isSome l n (by simpa using h)

theorem enumNth_succ_cons (ops : Counter C)
    (hincn : ∀ (x : C) (n : Nat), ops.inc_n x n = (ops.inc) ^[n] x)
    (a : α) (l : List α) (c : C) (n : Nat) (hn : n < l.length) :
    enumNth ops ⟨a :: l, c⟩ (n + 1) = enumNth ops ⟨l, ops.inc c⟩ n := by
  simp only [enumNth, listNth]
  rcases hl : listNth l n with ⟨o, it⟩
  cases o with
  | none =>
      have := listNth_isSome l n hn
      rw [hl] at this
      simp at this
  | some a' => simp [hl, hincn, Function.iterate_succ_apply]

theorem iterNextN_success (ops : Counter C)
    (hincn : ∀ (x : C) (n : Nat), ops.inc_n x n = (ops.inc) ^[n] x) :
    ∀ (n : Nat) (l : List α) (c : C), n < l.length →
      enumNth ops ⟨l, c⟩ n = iterNextN ops n ⟨l, c⟩
  | 0, [], _, h => absurd h (by simp)
  | 0, a :: l, c, _ => by
      simp [enumNth, listNth, iterNextN, enumNext, listNext, hincn]
  | n + 1, [], _, h => absurd h (by simp)
  | n + 1, a :: l, c, h => by
      have hn : n < l.length := by simpa using h
      rw [enumNth_succ_cons ops hincn a l c n hn]
      rw [iterNextN_success ops hincn n l (ops.inc c) hn]
      rfl

theorem iterNextN_failure (ops : Counter C) :
    ∀ (n : Nat) (l : List α) (c : C), l.length ≤ n →
      iterNextN ops n ⟨l, c⟩ = (none, ⟨[], (ops.inc) ^[l.length] c⟩)
  | 0, [], c, _ => rfl
  | 0, _ :: _, _, h => absurd h (by simp)
  | n + 1, [], c, _ => by
      have h0 := iterNextN_failure ops n ([] : List α) c (by simp)
      simp only [iterNextN, enumNext, listNext]
      simpa using h0
  | n + 1, a :: l, c, h => by
      have hn : l.length ≤ n := by simpa using h
      have := iterNextN_failure ops n l (ops.inc c) hn
      simp only [iterNextN, enumNext, listNext, this]
      rw [← Function.iterate_succ_apply]
      rfl

/-- Claim C3 (amended): when at least `n + 1` elements remain, `nth n`
is observationally equivalent to calling `next` `n + 1` times and
discarding the first `n` results — same yield and identical residual
state.  When fewer remain, both report exhaustion and leave the inner
iterator exhausted, but `nth` leaves the stored counter unchanged while
the repeated-`next` sequence advances it once per remaining element. -/
theorem c3_nth_vs_repeated_next (ops : Counter C)
    (hincn : ∀ (x : C) (n : Nat), ops.inc_n x n = (ops.inc) ^[n] x)
    (e : Enumerate α C) (n : Nat) :
    (n < e.iter.length → enumNth ops e n = iterNextN ops n e)
      ∧ (e.iter.length ≤ n →
          (enumNth ops e n).1 = none
            ∧ (iterNextN ops n e).1 = none
            ∧ (enumNth ops e n).2.iter = []
            ∧ (iterNextN ops n e).2.iter = []
            ∧ (enumNth ops e n).2.count = e.count
            ∧ (iterNextN ops n e).2.count
                = (ops.inc) ^[e.iter.length] e.count) := by
  obtain ⟨l, c⟩ := e
  constructor
  · exact fun h => iterNextN_success ops hincn n l c h
  · intro h
    have hnth := listNth_of_le l n h
    have hit := iterNextN_failure ops n l c h
    simp [enumNth, hnth, hit]

theorem c3_counterexample :
    (enumNth (wordCounter 16)
        (⟨[5], wMod 16 0⟩ : Enumerate Nat (Fin (2 ^ 16))) 1).1 = none
      ∧ (iterNextN (wordCounter 16) 1
          (⟨[5], wMod 16 0⟩ : Enumerate Nat (Fin (2 ^ 16)))).1 = none
      ∧ (enumNth (wordCounter 16)
          (⟨[5], wMod 16 0⟩ : Enumerate Nat (Fin (2 ^ 16))) 1).2.count
          = wMod 16 0
      ∧ (iterNextN (wordCounter 16) 1
          (⟨[5], wMod 16 0⟩ : Enumerate Nat (Fin (2 ^ 16)))).2.count
          = wMod 16 1
      ∧ (enumNth (wordCounter 16)
          (⟨[5], wMod 16 0⟩ : Enumerate Nat (Fin (2 ^ 16))) 1).2
          ≠ (iterNextN (wordCounter 16) 1
              (⟨[5], wMod 16 0⟩ : Enumerate Nat (Fin (2 ^ 16)))).2 := by
  decide

theorem c3_witness :
    1 < ((⟨[7, 8, 9], wMod 16 0⟩
          : Enumerate Nat (Fin (2 ^ 16))).iter).length
      ∧ enumNth (wordCounter 16)
          (⟨[7, 8, 9], wMod 16 0⟩ : Enumerate Nat (Fin (2 ^ 16))) 1
          = iterNextN (wordCounter 16) 1
              (⟨[7, 8, 9], wMod 16 0⟩ : Enumerate Nat (Fin (2 ^ 16))) :=
  ⟨by decide,
   (c3_nth_vs_repeated_next (wordCounter 16) (wordCounter_inc_n_eq 16)
     (⟨[7, 8, 9], wMod 16 0⟩ : Enumerate Nat (Fin (2 ^ 16))) 1).1
     (by decide)⟩

/-- A single consumption step: from the front (`next`) or from the back
(`next_back`). -/
inductive StepDir : Type
  | front : StepDir
  | back : StepDir
deriving DecidableEq

/-- Apply one consumption step to the adapter, keeping the resulting
state. -/
def applyDir (ops : Counter C) (e : Enumerate α C) : StepDir → Enumerate α C
  | StepDir.front => (enumNext ops e).2
  | StepDir.back => (enumNextBack ops e).2

/-- Apply an interleaving of front and back consumption steps. -/
def applyTrace (ops : Counter C) :
    List StepDir → Enumerate α C → Enumerate α C
  | [], e => e
  | d :: t, e => applyTrace ops t (applyDir ops e d)

/-- Number of front steps in a trace. -/
def countFront : List StepDir → Nat
  | [] => 0
  | StepDir.front :: t => countFront t + 1
  | StepDir.back :: t => countFront t

/-- Number of back steps in a trace. -/
def countBack : List StepDir → Nat
  | [] => 0
  | StepDir.front :: t => countBack t
  | StepDir.back :: t => countBack t + 1

theorem enumNextBack_snd (ops : Counter C) (l : List α) (c : C) :
    (enumNextBack ops ⟨l, c⟩).2 = ⟨l.dropLast, c⟩ := by
  simp only [enumNextBack, listNextBack_eq]
  rcases l.getLast? with _ | a <;> rfl

theorem take_drop_dropLast (l : List α) (k Y : Nat)
    (h : k + Y ≤ l.length - 1) :
    ((l.dropLast).drop k).take Y = (l.drop k).take Y := by
  rw [List.dropLast_eq_take, List.drop_take, List.take_take,
    min_eq_left (by omega : Y ≤ l.length - 1 - k)]

theorem applyTrace_segment (ops : Counter C) :
    ∀ (t : List StepDir) (l : List α) (c : C),
      countFront t + countBack t ≤ l.length →
      applyTrace ops t ⟨l, c⟩
        = ⟨(l.drop (countFront t)).take
              (l.length - countFront t - countBack t),
           (ops.inc) ^[countFront t] c⟩
  | [], l, c, _ => by
      simp [applyTrace, countFront, countBack, List.take_length]
  | StepDir.front :: t, l, c, h => by
      cases l with
      | nil =>
          exact absurd h (by simp [countFront, countBack])
      | cons a l' =>
          have h' : countFront t + countBack t ≤ l'.length := by
            simp only [countFront, countBack, List.length_cons] at h ⊢
            omega
          have hstep : applyTrace ops (StepDir.front :: t) ⟨a :: l', c⟩
              = applyTrace ops t ⟨l', ops.inc c⟩ := rfl
          rw [hstep, applyTrace_segment ops t l' (ops.inc c) h']
          simp only [countFront, countBack, List.length_cons,
            List.drop_succ_cons, Function.iterate_succ_apply]
          congr 2
          omega
  | StepDir.back :: t, l, c, h => by
      have h' : countFront t + countBack t ≤ l.dropLast.length := by
        simp only [countFront, countBack, List.length_dropLast] at h ⊢
        omega
      have hstep : applyTrace ops (StepDir.back :: t) ⟨l, c⟩
          = applyTrace ops t ⟨l.dropLast, c⟩ := by
        simp only [applyTrace, applyDir, enumNextBack_snd]
      rw [hstep, applyTrace_segment ops t l.dropLast c h']
      simp only [countFront, countBack, List.length_dropLast]
      rw [take_drop_dropLast l (countFront t)
        (l.length - 1 - countFront t - countBack t)
        (by have hd := List.length_dropLast l; omega)]
      congr 2
      omega

theorem segment_getLast? (l : List α) (k m : Nat)
    (h : k + m < l.length) :
    ((l.drop k).take (l.length - k - m)).getLast?
      = l[l.length - m - 1]? := by
  have hlen : ((l.drop k).take (l.length - k - m)).length
      = l.length - k - m := by
    simp only [List.length_take, List.length_drop]
    omega
  rw [List.getLast?_eq_getElem?, hlen, List.getElem?_take,
    if_pos (by omega : l.length - k - m - 1 < l.length - k - m),
    List.getElem?_drop]
  congr 1
  omega

/-- Claim C2 (amended): after any interleaving of `k` successful front
and `m` successful back consumptions on a wrapped iterator of length
`L`, the stored counter equals the initial value incremented `k` times,
and the next `next_back` yields the element at original position
`L - m - 1` with counter equal to the initial value incremented
`L - m - 1` times — i.e. the stored counter incremented
`(L - k - m - 1)` times: each element's emitted counter is the initial
value plus its true zero-based position, regardless of consumption
order. -/
theorem c2_cross_direction (ops : Counter C)
    (hincn : ∀ (x : C) (n : Nat), ops.inc_n x n = (ops.inc) ^[n] x)
    (t : List StepDir) (l : List α)
    (h : countFront t + countBack t < l.length) :
    (applyTrace ops t (enumerate_number ops l)).count
        = (ops.inc) ^[countFront t] ops.default
      ∧ (enumNextBack ops (applyTrace ops t (enumerate_number ops l))).1
        = (l[l.length - countBack t - 1]?).map
            (fun a =>
              ((ops.inc) ^[l.length - countBack t - 1] ops.default, a)) := by
  have hseg := applyTrace_segment ops t l ops.default (Nat.le_of_lt h)
  have hen : enumerate_number ops l = ⟨l, ops.default⟩ := rfl
  rw [hen, hseg]
  refine ⟨rfl, ?_⟩
  have hlen : ((l.drop (countFront t)).take
      (l.length - countFront t - countBack t)).length
      = l.length - countFront t - countBack t := by
    simp only [List.length_take, List.length_drop]
    omega
  have hgl := segment_getLast? l (countFront t) (countBack t) h
  rcases hx : l[l.length - countBack t - 1]? with _ | a
  · exact absurd (List.getElem?_eq_none_iff.mp hx) (by omega)
  · rw [hx] at hgl
    simp only [enumNextBack, listNextBack_eq, hgl, Option.map_some]
    have hdll : (((l.drop (countFront t)).take
        (l.length - countFront t - countBack t)).dropLast).length
        = l.length - countFront t - countBack t - 1 := by
      rw [List.length_dropLast, hlen]
    simp only [listLen, hdll, hincn, ← Function.iterate_add_apply]
    have hidx : l.length - countFront t - countBack t - 1 + countFront t
        = l.length - countBack t - 1 := by omega
    rw [hidx]
    rfl

theorem c2_counterexample :
    (enumNextBack (wordCounter 16)
        (applyTrace (wordCounter 16) [StepDir.front]
          (enumerate_number (wordCounter 16) ([10, 20, 30] : List Nat)))).1
      = some (wMod 16 2, 30)
      ∧ ((wordCounter 16).inc) ^[3 - 1 - 0 - 1] (wordCounter 16).default
          = wMod 16 1
      ∧ wMod 16 2 ≠ wMod 16 1 := by
  decide

theorem c2_witness :
    countFront [StepDir.front, StepDir.back]
        + countBack [StepDir.front, StepDir.back]
        < ([10, 20, 30] : List Nat).length
      ∧ ((applyTrace (wordCounter 16) [StepDir.front, StepDir.back]
            (enumerate_number (wordCounter 16)
              ([10, 20, 30] : List Nat))).count
          = ((wordCounter 16).inc)
              ^[countFront [StepDir.front, StepDir.back]]
              (wordCounter 16).default
        ∧ (enumNextBack (wordCounter 16)
            (applyTrace (wordCounter 16) [StepDir.front, StepDir.back]
              (enumerate_number (wordCounter 16)
                ([10, 20, 30] : List Nat)))).1
          = (([10, 20, 30] : List Nat)[([10, 20, 30] : List Nat).length
                - countBack [StepDir.front, StepDir.back] - 1]?).map
              (fun a =>
                (((wordCounter 16).inc)
                    ^[([10, 20, 30] : List Nat).length
                      - countBack [StepDir.front, StepDir.back] - 1]
                    (wordCounter 16).default, a))) :=
  ⟨by decide,
   c2_cross_direction (wordCounter 16) (wordCounter_inc_n_eq 16)
     [StepDir.front, StepDir.back] ([10, 20, 30] : List Nat) (by decide)⟩

/-- The successive values taken by `rfold`'s local counter: starting
from `K`, it is decremented before each element is delivered. -/
def decPairs (ops : Counter C) (K : C) : List α → List (C × α)
  | [] => []
  | a :: r => (ops.dec K, a) :: decPairs ops (ops.dec K) r

theorem rfold_aux (ops : Counter C) (f : B → C × α → B) :
    ∀ (r : List α) (acc : B) (K : C),
      List.foldl (fun p a => (f p.1 (ops.dec p.2, a), ops.dec p.2))
          (acc, K) r
        = (List.foldl f acc (decPairs ops K r), (ops.dec) ^[r.length] K)
  | [], _, _ => rfl
  | a :: r, acc, K => by
      simp only [List.foldl_cons, decPairs, List.length_cons]
      rw [rfold_aux ops f r (f acc (ops.dec K, a)) (ops.dec K),
        ← Function.iterate_succ_apply]

theorem decPairs_append (ops : Counter C) :
    ∀ (r₁ r₂ : List α) (K : C),
      decPairs ops K (r₁ ++ r₂)
        = decPairs ops K r₁ ++ decPairs ops ((ops.dec) ^[r₁.length] K) r₂
  | [], _, _ => rfl
  | a :: r₁, r₂, K => by
      simp only [List.cons_append, decPairs, List.length_cons,
        List.append_eq]
      rw [decPairs_append ops r₁ r₂ (ops.dec K),
        ← Function.iterate_succ_apply]

theorem dec_iterate_inc_iterate (ops : Counter C)
    (hdec : ∀ x : C, ops.dec (ops.inc x) = x) :
    ∀ (n : Nat) (x : C), (ops.dec) ^[n] ((ops.inc) ^[n] x) = x
  | 0, _ => rfl
  | n + 1, x => by
      rw [Function.iterate_succ_apply' (ops.inc) n x,
        Function.iterate_succ_apply, hdec]
      exact dec_iterate_inc_iterate ops hdec n x

theorem decPairs_reverse (ops : Counter C)
    (hdec : ∀ x : C, ops.dec (ops.inc x) = x) :
    ∀ (l : List α) (c : C),
      decPairs ops ((ops.inc) ^[l.length] c) l.reverse
        = (specPairs ops c l).reverse
  | [], _ => rfl
  | a :: l, c => by
      rw [List.reverse_cons, specPairs_cons, List.reverse_cons]
      rw [decPairs_append ops l.reverse [a] ((ops.inc) ^[(a :: l).length] c)]
      have h1 : (ops.inc) ^[(a :: l).length] c
          = (ops.inc) ^[l.length] (ops.inc c) := by
        rw [List.length_cons, Function.iterate_succ_apply]
      rw [h1, decPairs_reverse ops hdec l (ops.inc c)]
      congr 1
      simp only [decPairs, List.length_reverse]
      have h2 : ops.dec ((ops.dec) ^[l.length]
          ((ops.inc) ^[l.length] (ops.inc c)))
          = (ops.dec) ^[l.length + 1] ((ops.inc) ^[l.length + 1] c) := by
        rw [Function.iterate_succ_apply' (ops.dec) l.length,
          Function.iterate_succ_apply (ops.inc) l.length]
      rw [h2, dec_iterate_inc_iterate ops hdec]

/-- Claim C4: `rfold` invokes the callback once per remaining element
from back to front, delivering counters that are positionally correct
and strictly descending: with stored counter `c` and `r` remaining
elements, the delivered counters are `c` incremented `r - 1, r - 2,
..., 0` times, i.e. the callback folds over the reverse of the
front-to-back pair list. -/
theorem c4_rfold_descending (ops : Counter C)
    (hdec : ∀ x : C, ops.dec (ops.inc x) = x)
    (hincn : ∀ (x : C) (n : Nat), ops.inc_n x n = (ops.inc) ^[n] x)
    (l : List α) (c : C) (init : B) (f : B → C × α → B) :
    enumRfold ops ⟨l, c⟩ init f
      = List.foldl f init ((specPairs ops c l).reverse) := by
  show (List.foldl (fun p a => (f p.1 (ops.dec p.2, a), ops.dec p.2))
      (init, ops.inc_n c l.length) l.reverse).1
    = List.foldl f init ((specPairs ops c l).reverse)
  rw [hincn, rfold_aux ops f l.reverse init ((ops.inc) ^[l.length] c),
    decPairs_reverse ops hdec l c]

theorem c4_witness :
    enumRfold (wordCounter 16)
        (enumerate_number (wordCounter 16) (List.range 5))
        ([] : List (Fin (2 ^ 16) × Nat)) (fun acc p => acc ++ [p])
      = [(wMod 16 4, 4), (wMod 16 3, 3), (wMod 16 2, 2),
         (wMod 16 1, 1), (wMod 16 0, 0)] :=
  (c4_rfold_descending (wordCounter 16) (wordCounter_dec_inc 16)
    (wordCounter_inc_n_eq 16) (List.range 5) (wordCounter 16).default
    ([] : List (Fin (2 ^ 16) × Nat)) (fun acc p => acc ++ [p])).trans
    (by decide)

/-- The built-in numeric types of the Rust source, as an enumeration. -/
inductive CounterTy : Type
  | i8 : CounterTy
  | i16 : CounterTy
  | i32 : CounterTy
  | i64 : CounterTy
  | i128 : CounterTy
  | isize : CounterTy
  | u8 : CounterTy
  | u16 : CounterTy
  | u32 : CounterTy
  | u64 : CounterTy
  | u128 : CounterTy
  | usize : CounterTy
  | f32 : CounterTy
  | f64 : CounterTy
deriving DecidableEq

/-- The types given a `Counter` implementation by the `impl_counter!`
invocations (src/lib.rs lines 25-38). -/
def counterImplTypes : List CounterTy :=
  [CounterTy.i8, CounterTy.i16, CounterTy.i32, CounterTy.i64,
   CounterTy.i128, CounterTy.isize, CounterTy.u8, CounterTy.u16,
   CounterTy.u32, CounterTy.u64, CounterTy.u128, CounterTy.usize,
   CounterTy.f32, CounterTy.f64]

/-- The types given a named convenience call by the `def_iterator_ext!`
invocations inside `EnumerateNumber` (src/lib.rs lines 142-154). -/
def convenienceTypes : List CounterTy :=
  [CounterTy.i8, CounterTy.i16, CounterTy.i32, CounterTy.i64,
   CounterTy.i128, CounterTy.isize, CounterTy.u8, CounterTy.u16,
   CounterTy.u32, CounterTy.u64, CounterTy.u128,
   CounterTy.f32, CounterTy.f64]

/-- `EnumerateNumber::enumerate_i8` (src/lib.rs line 142). -/
def enumerate_i8 {γ : Type} (l : List γ) : Enumerate γ (Fin (2 ^ 8)) :=
  def_iterator_ext (wordCounter 8) l

/-- `EnumerateNumber::enumerate_i16` (src/lib.rs line 143). -/
def enumerate_i16 {γ : Type} (l : List γ) : Enumerate γ (Fin (2 ^ 16)) :=
  def_iterator_ext (wordCounter 16) l

/-- `EnumerateNumber::enumerate_i32` (src/lib.rs line 144). -/
def enumerate_i32 {γ : Type} (l : List γ) : Enumerate γ (Fin (2 ^ 32)) :=
  def_iterator_ext (wordCounter 32) l

/-- `EnumerateNumber::enumerate_i64` (src/lib.rs line 145). -/
def enumerate_i64 {γ : Type} (l : List γ) : Enumerate γ (Fin (2 ^ 64)) :=
  def_iterator_ext (wordCounter 64) l

/-- `EnumerateNumber::enumerate_i128` (src/lib.rs line 146). -/
def enumerate_i128 {γ : Type} (l : List γ) : Enumerate γ (Fin (2 ^ 128)) :=
  def_iterator_ext (wordCounter 128) l

/-- `EnumerateNumber::enumerate_isize` (src/lib.rs line 147), on a
64-bit platform. -/
def enumerate_isize {γ : Type} (l : List γ) : Enumerate γ (Fin (2 ^ 64)) :=
  def_iterator_ext (wordCounter 64) l

/-- `EnumerateNumber::enumerate_u8` (src/lib.rs line 148). -/
def enumerate_u8 {γ : Type} (l : List γ) : Enumerate γ (Fin (2 ^ 8)) :=
  def_iterator_ext (wordCounter 8) l

/-- `EnumerateNumber::enumerate_u16` (src/lib.rs line 149). -/
def enumerate_u16 {γ : Type} (l : List γ) : Enumerate γ (Fin (2 ^ 16)) :=
  def_iterator_ext (wordCounter 16) l

/-- `EnumerateNumber::enumerate_u32` (src/lib.rs line 150). -/
def enumerate_u32 {γ : Type} (l : List γ) : Enumerate γ (Fin (2 ^ 32)) :=
  def_iterator_ext (wordCounter 32) l

/-- `EnumerateNumber::enumerate_u64` (src/lib.rs line 151). -/
def enumerate_u64 {γ : Type} (l : List γ) : Enumerate γ (Fin (2 ^ 64)) :=
  def_iterator_ext (wordCounter 64) l

/-- `EnumerateNumber::enumerate_u128` (src/lib.rs line 152). -/
def enumerate_u128 {γ : Type} (l : List γ) : Enumerate γ (Fin (2 ^ 128)) :=
  def_iterator_ext (wordCounter 128) l

theorem c7_counterexample :
    CounterTy.usize ∈ counterImplTypes
      ∧ CounterTy.usize ∉ convenienceTypes := by
  decide

/-- Claim C7 (amended): a named convenience call exists for every
supported built-in numeric counter type except `usize` (which relies
on the standard `enumerate`), and every convenience call — being the
common `def_iterator_ext!` body — is equivalent to the generic
`enumerate_number` call with that counter type fixed: same inner
iterator, counter initialized to the type's zero-equivalent value. -/
theorem c7_convenience_equivalence :
    (∀ t : CounterTy,
        t ∈ convenienceTypes ↔ t ∈ counterImplTypes ∧ t ≠ CounterTy.usize)
      ∧ (∀ (D : Type) (ops : Counter D) (γ : Type) (l : List γ),
          def_iterator_ext ops l = enumerate_number ops l)
      ∧ (∀ (γ : Type) (l : List γ),
          enumerate_i8 l = enumerate_number (wordCounter 8) l
            ∧ enumerate_i16 l = enumerate_number (wordCounter 16) l
            ∧ enumerate_i32 l = enumerate_number (wordCounter 32) l
            ∧ enumerate_i64 l = enumerate_number (wordCounter 64) l
            ∧ enumerate_i128 l = enumerate_number (wordCounter 128) l
            ∧ enumerate_isize l = enumerate_number (wordCounter 64) l
            ∧ enumerate_u8 l = enumerate_number (wordCounter 8) l
            ∧ enumerate_u16 l = enumerate_number (wordCounter 16) l
            ∧ enumerate_u32 l = enumerate_number (wordCounter 32) l
            ∧ enumerate_u64 l = enumerate_number (wordCounter 64) l
            ∧ enumerate_u128 l = enumerate_number (wordCounter 128) l) :=
  ⟨by intro t; cases t <;> decide,
   fun _ _ _ _ => rfl,
   fun _ _ =>
     ⟨rfl, rfl, rfl, rfl, rfl, rfl, rfl, rfl, rfl, rfl, rfl⟩⟩
